import Mathlib

/-!
# badgers: a key-value store over an embedded engine, served over HTTP

A shallow embedding of `db.go` and `server.go`.  Go strings and `[]byte` are byte
sequences, a Go slice is either `nil` or a present sequence, Go errors are a small
inductive type with `fmt.Errorf("... %w")` wrapping and `errors.Is`.  The storage engine
(dgraph-io/badger) and the JSON and HTTP libraries are outside the repository: the
engine is modelled as a transactional ordered map, JSON decoding of stored bytes is a
parameter of the handlers.
-/

set_option autoImplicit false

namespace Badgers

/-! ## Go values -/

/-- One byte of a Go string or `[]byte`. -/
abbrev Byte := Nat

/-- A Go `string` (and the `[]byte` made from it): a sequence of bytes. -/
abbrev Key := List Byte

/-- A Go slice: the `nil` slice or a present sequence of elements. -/
inductive Slice (α : Type) where
  | nil
  | mk (elems : List α)
  deriving DecidableEq, Repr

/-- Elements of a slice; the `nil` slice has none. -/
def Slice.toList {α : Type} : Slice α → List α
  | .nil => []
  | .mk xs => xs

/-- Go `len(s)`. -/
def Slice.len {α : Type} (s : Slice α) : Nat := s.toList.length

/-- Go `s == nil`. -/
def Slice.isNil {α : Type} : Slice α → Bool
  | .nil => true
  | .mk _ => false

/-- Go `append(s, x)`: the result is always a present slice. -/
def Slice.append {α : Type} (s : Slice α) (x : α) : Slice α :=
  .mk (s.toList ++ [x])

/-- Go `append(dst[:0], src...)` with `dst == nil`: appending nothing to `nil` is `nil`. -/
def Slice.copyOf {α : Type} : List α → Slice α
  | [] => .nil
  | x :: xs => .mk (x :: xs)

/-! ## Errors -/

/-- Errors produced by the storage engine. -/
inductive BadgerError where
  /-- Sentinel `badger.ErrKeyNotFound`. -/
  | ErrKeyNotFound
  /-- Sentinel `badger.ErrEmptyKey`. -/
  | ErrEmptyKey
  /-- Any other engine failure (disk, conflict, size limits), told apart by a code. -/
  | failure (code : Nat)
  deriving DecidableEq, Repr

/-- Go `error` values that occur in the package. -/
inductive GoError where
  /-- An error value handed up by the engine. -/
  | badger (e : BadgerError)
  /-- The package sentinel `ErrKeyNotFound = errors.New("key not found")`. -/
  | ErrKeyNotFound
  /-- An error from `encoding/json` or from request binding. -/
  | json (code : Nat)
  /-- Result of `fmt.Errorf(format, arg, err)` with a `%w` verb wrapping `err`. -/
  | Errorf (format : String) (arg : Option Key) (err : GoError)
  deriving DecidableEq, Repr

/-- Go `errors.Is(err, target)`: walk the `Unwrap` chain comparing with `target`. -/
def errorsIs (err target : GoError) : Bool :=
  if err = target then true
  else match err with
    | .Errorf _ _ inner => errorsIs inner target
    | _ => false

/-! ## The storage engine (badger) -/

/-- Go `bytes.Compare(a, b) < 0`: lexicographic byte order, the order of engine keys. -/
def keyLt : Key → Key → Bool
  | [], [] => false
  | [], _ :: _ => true
  | _ :: _, [] => false
  | a :: as, b :: bs => decide (a < b) || (decide (a = b) && keyLt as bs)

/-- Go `bytes.HasPrefix(k, p)`. -/
def hasPrefixB : Key → Key → Bool
  | _, [] => true
  | [], _ :: _ => false
  | a :: as, b :: bs => decide (a = b) && hasPrefixB as bs

/-- Modelled from the spec: the embedded engine, "an embedded, transactional, ordered
key-value engine ... with keys ordered by byte value".  Its committed content is a list
of entries; the first entry for a key is the one in force. -/
structure BadgerDB where
  entries : List (Key × List Byte)
  deriving DecidableEq, Repr

/-- Value in force for a key in a list of entries. -/
def lookupEntry (k : Key) : List (Key × List Byte) → Option (List Byte)
  | [] => none
  | (k', v) :: rest => if k' = k then some v else lookupEntry k rest

/-- Remove every entry of a key. -/
def eraseEntry (k : Key) : List (Key × List Byte) → List (Key × List Byte)
  | [] => []
  | (k', v) :: rest => if k' = k then eraseEntry k rest else (k', v) :: eraseEntry k rest

/-- A transaction: the entries it sees and writes, and the failure (if any) that the
engine meets while serving it. -/
structure Txn where
  entries : List (Key × List Byte)
  fault : Option BadgerError
  deriving DecidableEq, Repr

/-- An item handed out by `txn.Get`. -/
structure Item where
  key : Key
  val : List Byte
  deriving DecidableEq, Repr

/-- Engine `txn.Get(key)`: an empty key is refused, an engine failure is reported, an
absent key is `badger.ErrKeyNotFound`. -/
def Txn.Get (txn : Txn) (key : Key) : Except BadgerError Item :=
  if key = [] then .error .ErrEmptyKey
  else match txn.fault with
    | some e => .error e
    | none =>
      match lookupEntry key txn.entries with
      | none => .error .ErrKeyNotFound
      | some v => .ok ⟨key, v⟩

/-- Engine `item.ValueCopy(nil)`. -/
def Item.ValueCopy (item : Item) : Slice Byte × Option BadgerError :=
  (Slice.copyOf item.val, none)

/-- Engine `txn.Set(key, val)`: upsert in the transaction; an empty key is refused. -/
def Txn.Set (txn : Txn) (key : Key) (val : Slice Byte) : Txn × Option BadgerError :=
  if key = [] then (txn, some .ErrEmptyKey)
  else ({ txn with entries := (key, val.toList) :: eraseEntry key txn.entries }, none)

/-- Engine `txn.Delete(key)`: remove in the transaction; an empty key is refused, an
absent key is not an error. -/
def Txn.Delete (txn : Txn) (key : Key) : Txn × Option BadgerError :=
  if key = [] then (txn, some .ErrEmptyKey)
  else ({ txn with entries := eraseEntry key txn.entries }, none)

/-- Engine `db.View(fn)`: run `fn` in a read-only transaction and return what it returns. -/
def BadgerDB.View {α : Type} (db : BadgerDB) (fault : Option BadgerError)
    (fn : Txn → α × Option BadgerError) : α × Option BadgerError :=
  fn ⟨db.entries, fault⟩

/-- Engine `db.Update(fn)`: run `fn` in a read-write transaction; when `fn` fails the
transaction is discarded, otherwise it is committed, and a commit that fails leaves the
content as it was. -/
def BadgerDB.Update (db : BadgerDB) (fault : Option BadgerError)
    (fn : Txn → Txn × Option BadgerError) : BadgerDB × Option BadgerError :=
  match fn ⟨db.entries, fault⟩ with
  | (_, some e) => (db, some e)
  | (txn, none) =>
    match fault with
    | some e => (db, some e)
    | none => (⟨txn.entries⟩, none)

/-- Insert a key into an ascending list of distinct keys. -/
def orderedInsertKey (k : Key) : List Key → List Key
  | [] => [k]
  | x :: xs =>
    if keyLt k x then k :: x :: xs
    else if k = x then x :: xs
    else x :: orderedInsertKey k xs

/-- The keys of a list of entries in ascending byte order, each once. -/
def sortedKeys : List (Key × List Byte) → List Key
  | [] => []
  | e :: rest => orderedInsertKey e.1 (sortedKeys rest)

/-- A key-only iterator over a transaction: the keys not yet passed, ascending. -/
structure Iterator where
  rest : List Key
  deriving DecidableEq, Repr

/-- Engine `txn.NewIterator(opts)` with `PrefetchValues = false`. -/
def Txn.NewIterator (txn : Txn) : Iterator := ⟨sortedKeys txn.entries⟩

/-- Engine `it.Seek(p)`: move to the smallest key that is not below `p`. -/
def Iterator.Seek (it : Iterator) (p : Key) : Iterator :=
  ⟨it.rest.dropWhile (fun k => keyLt k p)⟩

/-- Engine `it.ValidForPrefix(p)`: the iterator is at a key and that key has prefix `p`. -/
def Iterator.ValidForPrefix (it : Iterator) (p : Key) : Bool :=
  match it.rest with
  | [] => false
  | k :: _ => hasPrefixB k p

/-- Engine `it.Next()`. -/
def Iterator.Next (it : Iterator) : Iterator := ⟨it.rest.tail⟩

/-- Engine `it.Item().KeyCopy(nil)`; the empty key stands for "no item". -/
def Iterator.ItemKey (it : Iterator) : Key := it.rest.headD []

/-! ## The store (`db.go`) -/

/-- The store: `type DB struct { db *badger.DB }`; the handle stands for the engine's
current content. -/
structure DB where
  db : BadgerDB
  deriving DecidableEq, Repr

/-- The package sentinel `var ErrKeyNotFound = errors.New("key not found")`. -/
abbrev ErrKeyNotFound : GoError := .ErrKeyNotFound

/-- `DB.Get`: read `key` in a read transaction.  `fault` is the failure the engine meets
during this call, `none` when it meets none. -/
def DB.Get (db : DB) (fault : Option BadgerError) (key : Key) : Slice Byte × Option GoError :=
  match db.db.View fault (fun txn =>
      match txn.Get key with
      | .error e => (Slice.nil, some e)
      | .ok item => item.ValueCopy) with
  | (_, some e) =>
    if errorsIs (.badger e) (.badger .ErrKeyNotFound) then (.nil, some ErrKeyNotFound)
    else (.nil, some (.Errorf "get '%v' error: %w" (some key) (.badger e)))
  | (val, none) => (val, none)

/-- `DB.Set`: upsert in a read-write transaction. -/
def DB.Set (db : DB) (fault : Option BadgerError) (key : Key) (val : Slice Byte) :
    DB × Option GoError :=
  match db.db.Update fault (fun txn => txn.Set key val) with
  | (db', some e) => (⟨db'⟩, some (.Errorf "set '%s' error: %w" (some key) (.badger e)))
  | (db', none) => (⟨db'⟩, none)

/-- `DB.Delete`: remove in a read-write transaction. -/
def DB.Delete (db : DB) (fault : Option BadgerError) (key : Key) : DB × Option GoError :=
  match db.db.Update fault (fun txn => txn.Delete key) with
  | (db', some e) => (⟨db'⟩, some (.Errorf "delete '%v' error: %w" (some key) (.badger e)))
  | (db', none) => (⟨db'⟩, none)

/-- The loop of `DB.ListKeys`, `for ...; it.ValidForPrefix(p); it.Next() { keys =
append(keys, k) }`, run for at most `n` rounds. -/
def listKeysLoop (p : Key) : Nat → Iterator → Slice Key → Slice Key
  | 0, _, keys => keys
  | n + 1, it, keys =>
    if it.ValidForPrefix p then listKeysLoop p n it.Next (keys.append it.ItemKey)
    else keys

/-- `DB.ListKeys`: the keys with prefix `p`, by a key-only scan in a read transaction.
`keys` starts as the nil slice (`var keys []string`); the loop gets as many rounds as
there are keys left after the seek, which is enough for it to reach its exit. -/
def DB.ListKeys (db : DB) (fault : Option BadgerError) (p : Key) : Slice Key × Option GoError :=
  match db.db.View fault (fun txn =>
      let it := txn.NewIterator.Seek p
      (listKeysLoop p (it.rest.length + 1) it Slice.nil, none)) with
  | (_, some e) => (.nil, some (.Errorf "list keys error: %w" none (.badger e)))
  | (keys, none) => (keys, none)

/-- A key is stored when the store holds a value for it. -/
def DB.has (db : DB) (k : Key) : Bool := (lookupEntry k db.db.entries).isSome

/-- The empty store, as a fresh directory opens. -/
def DB.empty : DB := ⟨⟨[]⟩⟩

/-- Keys of the example: "a/1", "a/2", "b/1", "z", "a/" as bytes. -/
def kA1 : Key := [97, 47, 49]
def kA2 : Key := [97, 47, 50]
def kB1 : Key := [98, 47, 49]
def kZ : Key := [122]
def kASlash : Key := [97, 47]

/-- The example store: "a/1", "b/1", "a/2" set in that order on the empty store, each to
the JSON text `1`. -/
def exampleDB : DB :=
  (((DB.empty.Set none kA1 (.mk [49])).1.Set none kB1 (.mk [49])).1.Set none kA2 (.mk [49])).1

/-! ## JSON values and request binding -/

/-- A decoded JSON value, as `encoding/json` stores it in an `interface{}`; JSON `null`
is the nil interface.  A number keeps its literal text. -/
inductive JVal where
  | null
  | bool (b : Bool)
  | number (text : String)
  | string (s : Key)
  | array (xs : List JVal)
  | object (fields : List (String × JVal))
  deriving Repr

/-- The functions of `encoding/json` the handlers call; they are outside the repository
and the handlers are stated for any such pair. -/
structure Codec where
  /-- Function `json.Marshal` on an `interface{}` value. -/
  Marshal : JVal → Except GoError (List Byte)
  /-- Function `json.Unmarshal` into an `interface{}`. -/
  Unmarshal : List Byte → Except GoError JVal

/-- The body of a POST request as the JSON decoder reads it: not JSON at all, or a JSON
document. -/
inductive ReqBody where
  | malformed
  | doc (v : JVal)
  deriving Repr

/-- The request type `setReq`:
`Key string` and `Value interface{}`. -/
structure setReq where
  Key : Key
  Value : JVal
  deriving Repr

/-- Struct tag of field `Key` of `setReq`: `json:"key" bind:"required"`. -/
def setReq.KeyTag : List (String × String) := [("json", "key"), ("bind", "required")]

/-- Struct tag of field `Value` of `setReq`: `json:"value" bind:"required"`. -/
def setReq.ValueTag : List (String × String) := [("json", "value"), ("bind", "required")]

/-- Go `reflect.StructTag.Lookup`. -/
def tagLookup (name : String) : List (String × String) → Option String
  | [] => none
  | (n, v) :: rest => if n = name then some v else tagLookup name rest

/-- The struct tag that gin's validator reads (`validator.SetTagName("binding")`). -/
def ginValidatorTagName : String := "binding"

/-- ASCII case folding of a JSON member name (`encoding/json` matches field names
without regard to case). -/
def foldName (n : String) : String := String.mk (n.data.map Char.toLower)

/-- Last member of a JSON object that matches a field name. -/
def memberFor (name : String) : List (String × JVal) → Option JVal
  | [] => none
  | (n, v) :: rest =>
    match memberFor name rest with
    | some w => some w
    | none => if foldName n = name then some v else none

/-- Decoding a JSON document into a zero `setReq` (`json.Decoder.Decode`): `null`
leaves the struct as it is, an object fills the fields that it has, a member of the
wrong type and any other document are type errors. -/
def decodeSetReq (v : JVal) : Except GoError setReq :=
  match v with
  | .null => .ok ⟨[], .null⟩
  | .object fields =>
    let value : JVal :=
      match memberFor ((tagLookup "json" setReq.ValueTag).getD "Value") fields with
      | some w => w
      | none => .null
    match memberFor ((tagLookup "json" setReq.KeyTag).getD "Key") fields with
    | none => .ok ⟨[], value⟩
    | some .null => .ok ⟨[], value⟩
    | some (.string s) => .ok ⟨s, value⟩
    | some _ => .error (.json 1)
  | _ => .error (.json 1)

/-- Whether a JSON value is the nil interface. -/
def JVal.isNil : JVal → Bool
  | .null => true
  | _ => false

/-- Validation of a bound `setReq` by gin's validator: a field is checked only when its
tag under the validator's tag name asks for it. -/
def validateSetReq (req : setReq) : Option GoError :=
  if tagLookup ginValidatorTagName setReq.KeyTag = some "required" ∧ req.Key = [] then
    some (.json 2)
  else if tagLookup ginValidatorTagName setReq.ValueTag = some "required" ∧ req.Value.isNil then
    some (.json 2)
  else none

/-- Gin `c.ShouldBindJSON(&req)`: decode the body, then validate. -/
def ShouldBindJSON (body : ReqBody) : Except GoError setReq :=
  match body with
  | .malformed => .error (.json 0)
  | .doc v =>
    match decodeSetReq v with
    | .error e => .error e
    | .ok req =>
      match validateSetReq req with
      | some e => .error e
      | none => .ok req

/-! ## The HTTP handlers (`server.go`) -/

/-- Text of an error response. -/
inductive ErrText where
  /-- A fixed text. -/
  | text (s : String)
  /-- Value of `fmt.Sprintf(format, key)`. -/
  | sprintf (format : String) (key : Key)
  /-- Value of `err.Error()`. -/
  | ofError (err : GoError)
  deriving Repr

/-- What a handler writes. -/
inductive Body where
  /-- JSON `{"error": ...}`. -/
  | error (msg : ErrText)
  /-- JSON `{"value": v}`. -/
  | value (v : JVal)
  /-- JSON `{"keys": keys}`; a nil slice is written as `null`, a present one as an array. -/
  | keys (keys : Slice Key)
  /-- Plain text, from `c.String`. -/
  | text (s : String)
  deriving Repr

/-- An HTTP response: status code and body. -/
structure Response where
  status : Nat
  body : Body
  deriving Repr

/-- Handler `getKey`; `key` is `c.Param("key")`.  It returns the store as the handler
leaves it and the response. -/
def getKey (codec : Codec) (db : DB) (fault : Option BadgerError) (key : Key) : DB × Response :=
  if key = [] then (db, ⟨400, .error (.text "need not empty key")⟩)
  else
    match db.Get fault key with
    | (_, some err) =>
      if errorsIs err ErrKeyNotFound then
        (db, ⟨404, .error (.sprintf "key '%v' not found" key)⟩)
      else (db, ⟨500, .error (.ofError err)⟩)
    | (val, none) =>
      match codec.Unmarshal val.toList with
      | .error err => (db, ⟨500, .error (.ofError err)⟩)
      | .ok v => (db, ⟨200, .value v⟩)

/-- Handler `setKey`; `body` is the request body. -/
def setKey (codec : Codec) (db : DB) (fault : Option BadgerError) (body : ReqBody) :
    DB × Response :=
  match ShouldBindJSON body with
  | .error err => (db, ⟨400, .error (.ofError err)⟩)
  | .ok req =>
    match codec.Marshal req.Value with
    | .error err => (db, ⟨500, .error (.ofError err)⟩)
    | .ok val =>
      match db.Set fault req.Key (.mk val) with
      | (db', some err) => (db', ⟨500, .error (.ofError err)⟩)
      | (db', none) => (db', ⟨201, .text ""⟩)

/-- Handler `deleteKey`; `key` is `c.Param("key")`. -/
def deleteKey (db : DB) (fault : Option BadgerError) (key : Key) : DB × Response :=
  if key = [] then (db, ⟨400, .error (.text "need not empty key")⟩)
  else
    match db.Delete fault key with
    | (db', some err) =>
      if errorsIs err ErrKeyNotFound then
        (db', ⟨404, .error (.sprintf "key '%v' not found" key)⟩)
      else (db', ⟨500, .error (.ofError err)⟩)
    | (db', none) => (db', ⟨204, .text ""⟩)

/-- Handler `listKeys`; `p` is `c.Query("prefix")`. -/
def listKeys (db : DB) (fault : Option BadgerError) (p : Key) : DB × Response :=
  match db.ListKeys fault p with
  | (_, some err) => (db, ⟨500, .error (.ofError err)⟩)
  | (keys, none) =>
    let keys := if keys.isNil then Slice.mk [] else keys
    (db, ⟨200, .keys keys⟩)

/-! ## The server and its lifecycle (`server.go`) -/

/-- The four handlers. -/
inductive HandlerName where
  | getKey | setKey | deleteKey | listKeys
  deriving DecidableEq, Repr

/-- One route of a gin router. -/
structure Route where
  method : String
  path : String
  handler : HandlerName
  deriving DecidableEq, Repr

/-- A gin router (`*gin.Engine`): its routes. -/
structure GinEngine where
  routes : List Route
  deriving DecidableEq, Repr

/-- Gin `gin.Default()`: a router without routes. -/
def ginDefault : GinEngine := ⟨[]⟩

/-- `DB.LoadRouter`: register the four routes. -/
def DB.LoadRouter (_db : DB) (r : GinEngine) : GinEngine :=
  ⟨r.routes ++
    [⟨"GET", "/items/:key/", .getKey⟩,
     ⟨"POST", "/items/", .setKey⟩,
     ⟨"DELETE", "/items/:key/", .deleteKey⟩,
     ⟨"GET", "/keys/", .listKeys⟩]⟩

/-- The fields of `http.Server` that `Run` sets. -/
structure HttpServer where
  Addr : String
  Handler : GinEngine
  deriving DecidableEq, Repr

/-- `type Server struct { db *DB; r *gin.Engine; srv *http.Server }`; `srv` is nil until
`Run`. -/
structure Server where
  db : DB
  r : GinEngine
  srv : Option HttpServer
  deriving DecidableEq, Repr

/-- `DB.Server` of `server.go`. -/
def DB.Server (db : DB) : Server :=
  { db := db, r := db.LoadRouter ginDefault, srv := none }

/-- `Server.Run`: build the HTTP server, store it in `s.srv`, start serving it in a
goroutine.  The result is the server after the call and the HTTP server the goroutine
listens with. -/
def Server.Run (s : Server) (_addr : String) : Server × HttpServer :=
  let srv : HttpServer := { Addr := ":8080", Handler := s.r }
  ({ s with srv := some srv }, srv)

/-- What `Server.Close` does, in order. -/
inductive Event where
  /-- Call of `s.srv.Shutdown(ctx)` returned this result. -/
  | srvShutdown (result : Option GoError)
  /-- Call of `s.db.Close()` returned this result. -/
  | dbClose (result : Option GoError)
  /-- Call of `log.Fatal`, which ends the process. -/
  | logFatal (err : GoError)
  deriving DecidableEq, Repr

/-- How a call ends. -/
inductive Ending where
  | returned
  | exited
  | panicked
  deriving DecidableEq, Repr

/-- `Server.Close(ctx)`.  `shutdownResult` is what `Shutdown(ctx)` returns (an error when
the deadline of `ctx` passes first), `closeResult` what the engine's `Close` returns if
it is called.  A nil `s.srv` makes `Shutdown` dereference nil. -/
def Server.Close (s : Server) (shutdownResult closeResult : Option GoError) :
    List Event × Ending :=
  match s.srv with
  | none => ([], .panicked)
  | some _ =>
    match shutdownResult with
    | some err => ([.srvShutdown (some err), .logFatal err], .exited)
    | none =>
      match closeResult with
      | some err => ([.srvShutdown none, .dbClose (some err), .logFatal err], .exited)
      | none => ([.srvShutdown none, .dbClose none], .returned)

/-! ## Histories of store calls -/

/-- A mutating call on the store, with the engine failure it meets. -/
inductive Op where
  | set (fault : Option BadgerError) (key : Key) (val : Slice Byte)
  | delete (fault : Option BadgerError) (key : Key)
  deriving DecidableEq, Repr

/-- The store after one call. -/
def DB.step (db : DB) : Op → DB
  | .set f k v => (db.Set f k v).1
  | .delete f k => (db.Delete f k).1

/-- The store after a sequence of calls. -/
def DB.run (db : DB) : List Op → DB
  | [] => db
  | op :: ops => (db.step op).run ops

/-- No call of the sequence is a `Set` of the key. -/
def noSetOf (k : Key) : List Op → Bool
  | [] => true
  | .set _ k' _ :: ops => decide (k' ≠ k) && noSetOf k ops
  | .delete _ _ :: ops => noSetOf k ops

/-- The request body `{"key": "x"}`: it has no "value" member. -/
def bodyWithoutValue : ReqBody := .doc (.object [("key", .string [120])])

/-- The request body `{"value": 1}`: it has no "key" member. -/
def bodyWithoutKey : ReqBody := .doc (.object [("value", .number "1")])

/-- Keys in strictly ascending byte order. -/
def Ascending (l : List Key) : Prop := l.Pairwise (fun a b => keyLt a b = true)

/-- A stand-in for `encoding/json` on the two JSON texts the examples use: it writes
`null` and reads `1`. -/
def exampleCodec : Codec where
  Marshal := fun v =>
    match v with
    | .null => .ok [110, 117, 108, 108]
    | _ => .error (.json 3)
  Unmarshal := fun b => if b = [49] then .ok (.number "1") else .error (.json 4)

/-- Whether an event is a call of `s.db.Close()`. -/
def Event.isDbClose : Event → Bool
  | .dbClose _ => true
  | _ => false

/-! ## Lemmas: the byte order -/

theorem keyLt_irrefl (a : Key) : keyLt a a = false := by
  induction a with
  | nil => rfl
  | cons x xs ih => simp [keyLt, ih]

theorem keyLt_trans : ∀ (a b c : Key), keyLt a b = true → keyLt b c = true → keyLt a c = true
  | [], [], _, h, _ => by simp [keyLt] at h
  | [], _ :: _, [], _, h => by simp [keyLt] at h
  | [], _ :: _, _ :: _, _, _ => by simp [keyLt]
  | _ :: _, [], _, h, _ => by simp [keyLt] at h
  | _ :: _, _ :: _, [], _, h => by simp [keyLt] at h
  | x :: xs, y :: ys, z :: zs, h1, h2 => by
    simp only [keyLt, Bool.or_eq_true, Bool.and_eq_true, decide_eq_true_eq] at h1 h2 ⊢
    rcases h1 with h1 | ⟨e1, t1⟩
    · rcases h2 with h2 | ⟨e2, _⟩
      · exact Or.inl (lt_trans h1 h2)
      · exact Or.inl (e2 ▸ h1)
    · rcases h2 with h2 | ⟨e2, t2⟩
      · exact Or.inl (e1 ▸ h2)
      · exact Or.inr ⟨e1.trans e2, keyLt_trans xs ys zs t1 t2⟩

theorem keyLt_connected : ∀ (a b : Key), keyLt a b = false → a ≠ b → keyLt b a = true
  | [], [], _, h => absurd rfl h
  | [], _ :: _, h, _ => by simp [keyLt] at h
  | _ :: _, [], _, _ => by simp [keyLt]
  | x :: xs, y :: ys, h, hne => by
    simp only [keyLt, Bool.or_eq_false_iff, Bool.and_eq_false_iff, decide_eq_false_iff_not,
      Bool.or_eq_true, Bool.and_eq_true, decide_eq_true_eq] at h ⊢
    obtain ⟨h1, h2⟩ := h
    by_cases e : x = y
    · subst e
      right
      refine ⟨rfl, keyLt_connected xs ys ?_ ?_⟩
      · rcases h2 with h2 | h2
        · exact absurd rfl h2
        · exact h2
      · intro e2
        exact hne (by rw [e2])
    · left
      exact lt_of_le_of_ne (Nat.le_of_not_lt h1) (Ne.symm e)

theorem keyLt_asymm (a b : Key) (h : keyLt a b = true) : keyLt b a = false := by
  cases hba : keyLt b a with
  | false => rfl
  | true =>
    have := keyLt_trans a b a h hba
    rw [keyLt_irrefl] at this
    exact absurd this (by decide)

theorem hasPrefixB_nil (k : Key) : hasPrefixB k [] = true := by
  cases k <;> rfl

theorem not_keyLt_of_hasPrefixB : ∀ (k p : Key), hasPrefixB k p = true → keyLt k p = false
  | [], [], _ => rfl
  | _ :: _, [], _ => rfl
  | [], _ :: _, h => by simp [hasPrefixB] at h
  | a :: as, b :: bs, h => by
    simp only [hasPrefixB, Bool.and_eq_true, decide_eq_true_eq] at h
    obtain ⟨e, t⟩ := h
    subst e
    simp [keyLt, not_keyLt_of_hasPrefixB as bs t]

theorem no_hasPrefixB_above : ∀ (p x y : Key), keyLt x p = false → hasPrefixB x p = false →
    keyLt x y = true → hasPrefixB y p = false
  | [], x, _, _, h, _ => by rw [hasPrefixB_nil] at h; exact absurd h (by decide)
  | _ :: _, [], _, h, _, _ => by simp [keyLt] at h
  | _ :: _, _ :: _, [], _, _, h => by simp [keyLt] at h
  | a :: ps, b :: xs, c :: ys, h1, h2, h3 => by
    simp only [keyLt, hasPrefixB, Bool.or_eq_false_iff, Bool.and_eq_false_iff,
      decide_eq_false_iff_not, Bool.or_eq_true, Bool.and_eq_true, decide_eq_true_eq] at h1 h2 h3 ⊢
    obtain ⟨h1a, h1b⟩ := h1
    by_cases e : c = a
    · right
      subst e
      rcases h3 with h3 | ⟨e3, t3⟩
      · exact absurd h3 h1a
      · subst e3
        have q1 : keyLt xs ps = false := by
          rcases h1b with h | h
          · exact absurd rfl h
          · exact h
        have q2 : hasPrefixB xs ps = false := by
          rcases h2 with h | h
          · exact absurd rfl h
          · exact h
        exact no_hasPrefixB_above ps xs ys q1 q2 t3
    · left
      exact e

/-! ## Lemmas: entries and the ordered scan -/

theorem lookupEntry_eraseEntry_self (k : Key) (es : List (Key × List Byte)) :
    lookupEntry k (eraseEntry k es) = none := by
  induction es with
  | nil => rfl
  | cons e rest ih =>
    obtain ⟨k', v⟩ := e
    by_cases h : k' = k
    · simp only [eraseEntry, h, if_true]
      exact ih
    · simp only [eraseEntry, h, if_false, lookupEntry]
      exact ih

theorem eraseEntry_of_lookupEntry_none (k : Key) (es : List (Key × List Byte))
    (h : lookupEntry k es = none) : eraseEntry k es = es := by
  induction es with
  | nil => rfl
  | cons e rest ih =>
    obtain ⟨k', v⟩ := e
    by_cases hk : k' = k
    · simp [lookupEntry, hk] at h
    · simp only [lookupEntry, hk, if_false] at h
      simp only [eraseEntry, hk, if_false, ih h]

theorem eraseEntry_idem (k : Key) (es : List (Key × List Byte)) :
    eraseEntry k (eraseEntry k es) = eraseEntry k es :=
  eraseEntry_of_lookupEntry_none k _ (lookupEntry_eraseEntry_self k es)

theorem lookupEntry_eraseEntry_ne (k k' : Key) (es : List (Key × List Byte)) (h : k' ≠ k) :
    lookupEntry k' (eraseEntry k es) = lookupEntry k' es := by
  induction es with
  | nil => rfl
  | cons e rest ih =>
    obtain ⟨k₀, v⟩ := e
    by_cases hk : k₀ = k
    · have hne : ¬ k₀ = k' := fun e => h (e.symm.trans hk)
      simp only [eraseEntry, hk, if_true, lookupEntry]
      rw [ih, if_neg (fun e => h e.symm)]
    · simp only [eraseEntry, hk, if_false, lookupEntry, ih]

theorem mem_orderedInsertKey (k y : Key) (xs : List Key) :
    y ∈ orderedInsertKey k xs ↔ y = k ∨ y ∈ xs := by
  induction xs with
  | nil => simp [orderedInsertKey]
  | cons x rest ih =>
    rw [orderedInsertKey]
    split_ifs with h1 h2
    · simp
    · subst h2
      simp
    · rw [List.mem_cons, ih, List.mem_cons]
      tauto

theorem ascending_orderedInsertKey (k : Key) (xs : List Key) (h : Ascending xs) :
    Ascending (orderedInsertKey k xs) := by
  induction xs with
  | nil => simp [orderedInsertKey, Ascending]
  | cons x rest ih =>
    have hx : ∀ y ∈ rest, keyLt x y = true := (List.pairwise_cons.mp h).1
    have hrest : Ascending rest := (List.pairwise_cons.mp h).2
    rw [orderedInsertKey]
    split_ifs with h1 h2
    · refine List.pairwise_cons.mpr ⟨?_, h⟩
      intro y hy
      rcases List.mem_cons.mp hy with e | hy
      · rw [e]; exact h1
      · exact keyLt_trans k x y h1 (hx y hy)
    · exact h
    · refine List.pairwise_cons.mpr ⟨?_, ih hrest⟩
      intro y hy
      rcases (mem_orderedInsertKey k y rest).mp hy with e | hy
      · rw [e]
        exact keyLt_connected k x (by simpa using h1) h2
      · exact hx y hy

theorem ascending_sortedKeys (es : List (Key × List Byte)) : Ascending (sortedKeys es) := by
  induction es with
  | nil => simp [sortedKeys, Ascending]
  | cons e rest ih => exact ascending_orderedInsertKey e.1 _ ih

theorem mem_sortedKeys (k : Key) (es : List (Key × List Byte)) :
    k ∈ sortedKeys es ↔ (lookupEntry k es).isSome = true := by
  induction es with
  | nil => simp [sortedKeys, lookupEntry]
  | cons e rest ih =>
    obtain ⟨k', v⟩ := e
    simp only [sortedKeys, mem_orderedInsertKey, ih, lookupEntry]
    by_cases h : k' = k
    · simp [h]
    · have h' : ¬ k = k' := fun e => h e.symm
      simp [h, h']

theorem ascending_nodup (l : List Key) (h : Ascending l) : l.Nodup := by
  refine List.Pairwise.imp ?_ h
  intro a b hab e
  rw [e, keyLt_irrefl] at hab
  exact absurd hab (by decide)

/-- In an ascending list whose keys are all at or above `p`, the keys with prefix `p`
come first. -/
theorem takeWhile_eq_filter_of_ascending (p : Key) (l : List Key) (h : Ascending l)
    (hge : ∀ k ∈ l, keyLt k p = false) :
    l.takeWhile (fun k => hasPrefixB k p) = l.filter (fun k => hasPrefixB k p) := by
  induction l with
  | nil => rfl
  | cons x rest ih =>
    have hx : ∀ y ∈ rest, keyLt x y = true := (List.pairwise_cons.mp h).1
    have hrest : Ascending rest := (List.pairwise_cons.mp h).2
    have hge' : ∀ k ∈ rest, keyLt k p = false := fun k hk => hge k (List.mem_cons_of_mem _ hk)
    cases hp : hasPrefixB x p with
    | true => simp [List.takeWhile_cons, List.filter_cons, hp, ih hrest hge']
    | false =>
      have hnone : ∀ y ∈ rest, hasPrefixB y p = false := fun y hy =>
        no_hasPrefixB_above p x y (hge x (List.mem_cons_self _ _)) hp (hx y hy)
      have : rest.filter (fun k => hasPrefixB k p) = [] := by
        rw [List.filter_eq_nil_iff]
        intro y hy
        simp [hnone y hy]
      simp [List.takeWhile_cons, List.filter_cons, hp, this]

/-- Seeking to `p` and reading while the prefix holds gives the keys with prefix `p`. -/
theorem scan_eq_filter (p : Key) (l : List Key) (h : Ascending l) :
    (l.dropWhile (fun k => keyLt k p)).takeWhile (fun k => hasPrefixB k p)
      = l.filter (fun k => hasPrefixB k p) := by
  induction l with
  | nil => rfl
  | cons x rest ih =>
    have hx : ∀ y ∈ rest, keyLt x y = true := (List.pairwise_cons.mp h).1
    have hrest : Ascending rest := (List.pairwise_cons.mp h).2
    cases hlt : keyLt x p with
    | true =>
      have hp : hasPrefixB x p = false := by
        cases hq : hasPrefixB x p with
        | false => rfl
        | true =>
          rw [not_keyLt_of_hasPrefixB x p hq] at hlt
          exact absurd hlt (by decide)
      simp [List.dropWhile_cons, List.filter_cons, hlt, hp, ih hrest]
    | false =>
      have hge : ∀ k ∈ x :: rest, keyLt k p = false := by
        intro k hk
        rcases List.mem_cons.mp hk with e | hk
        · rw [e]; exact hlt
        · cases hkp : keyLt k p with
          | false => rfl
          | true =>
            rw [keyLt_trans x k p (hx k hk) hkp] at hlt
            exact absurd hlt (by decide)
      have hd : (x :: rest).dropWhile (fun k => keyLt k p) = x :: rest := by
        simp [List.dropWhile_cons, hlt]
      rw [hd]
      exact takeWhile_eq_filter_of_ascending p (x :: rest) h hge

theorem Slice.toList_append {α : Type} (s : Slice α) (x : α) :
    (s.append x).toList = s.toList ++ [x] := rfl

/-- The loop of `ListKeys`, given enough rounds, appends the keys it passes while the
prefix holds, and leaves its slice untouched when it passes none. -/
theorem listKeysLoop_eq (p : Key) : ∀ (n : Nat) (l : List Key) (acc : Slice Key),
    l.length < n →
    listKeysLoop p n ⟨l⟩ acc =
      (match l.takeWhile (fun k => hasPrefixB k p) with
       | [] => acc
       | x :: xs => Slice.mk (acc.toList ++ x :: xs))
  | 0, _, _, h => absurd h (Nat.not_lt_zero _)
  | n + 1, [], acc, _ => by
    simp [listKeysLoop, Iterator.ValidForPrefix]
  | n + 1, x :: rest, acc, h => by
    have hlen : rest.length < n := by simpa using h
    cases hp : hasPrefixB x p with
    | false => simp [listKeysLoop, Iterator.ValidForPrefix, hp, List.takeWhile_cons]
    | true =>
      have ih := listKeysLoop_eq p n rest (acc.append x) hlen
      simp only [listKeysLoop, Iterator.ValidForPrefix, hp, if_true, Iterator.Next,
        Iterator.ItemKey, List.tail_cons, List.headD_cons, List.takeWhile_cons]
      rw [ih]
      cases List.takeWhile (fun k => hasPrefixB k p) rest with
      | nil => rfl
      | cons y ys => simp [Slice.toList_append]

/-! ## Lemmas: what the store calls compute -/

theorem DB.Get_eq (db : DB) (k : Key) (hk : k ≠ []) :
    db.Get none k =
      (match lookupEntry k db.db.entries with
       | none => (Slice.nil, some ErrKeyNotFound)
       | some v => (Slice.copyOf v, none)) := by
  unfold DB.Get BadgerDB.View Txn.Get
  simp only [hk, if_false]
  cases lookupEntry k db.db.entries with
  | none => simp [errorsIs, ErrKeyNotFound]
  | some v => simp [Item.ValueCopy]

theorem DB.Set_eq (db : DB) (k : Key) (v : Slice Byte) (hk : k ≠ []) :
    db.Set none k v = (⟨⟨(k, v.toList) :: eraseEntry k db.db.entries⟩⟩, none) := by
  simp [DB.Set, BadgerDB.Update, Txn.Set, hk]

theorem DB.Set_ok (db db' : DB) (f : Option BadgerError) (k : Key) (v : Slice Byte)
    (h : db.Set f k v = (db', none)) :
    k ≠ [] ∧ f = none ∧ db' = ⟨⟨(k, v.toList) :: eraseEntry k db.db.entries⟩⟩ := by
  by_cases hk : k = []
  · simp [DB.Set, BadgerDB.Update, Txn.Set, hk] at h
  · cases f with
    | some e => simp [DB.Set, BadgerDB.Update, Txn.Set, hk] at h
    | none =>
      rw [DB.Set_eq db k v hk] at h
      exact ⟨hk, rfl, (Prod.mk.inj h).1.symm⟩

theorem DB.Delete_eq (db : DB) (k : Key) (hk : k ≠ []) :
    db.Delete none k = (⟨⟨eraseEntry k db.db.entries⟩⟩, none) := by
  simp [DB.Delete, BadgerDB.Update, Txn.Delete, hk]

theorem DB.Delete_fault (db : DB) (e : BadgerError) (k : Key) :
    (db.Delete (some e) k).1 = db := by
  by_cases hk : k = [] <;> simp [DB.Delete, BadgerDB.Update, Txn.Delete, hk]

theorem DB.Delete_empty_key (db : DB) (f : Option BadgerError) :
    (db.Delete f []).1 = db := by
  simp [DB.Delete, BadgerDB.Update, Txn.Delete]

theorem DB.ListKeys_eq (db : DB) (f : Option BadgerError) (p : Key) :
    db.ListKeys f p =
      ((match (sortedKeys db.db.entries).filter (fun k => hasPrefixB k p) with
        | [] => Slice.nil
        | x :: xs => Slice.mk (x :: xs)), none) := by
  unfold DB.ListKeys BadgerDB.View
  simp only [Txn.NewIterator, Iterator.Seek]
  rw [listKeysLoop_eq p _ _ Slice.nil (Nat.lt_succ_self _),
    scan_eq_filter p _ (ascending_sortedKeys _)]
  cases List.filter (fun k => hasPrefixB k p) (sortedKeys db.db.entries) <;> rfl

theorem DB.ListKeys_toList (db : DB) (f : Option BadgerError) (p : Key) :
    (db.ListKeys f p).1.toList = (sortedKeys db.db.entries).filter (fun k => hasPrefixB k p) := by
  rw [DB.ListKeys_eq]
  cases List.filter (fun k => hasPrefixB k p) (sortedKeys db.db.entries) <;> rfl

theorem lookupEntry_eraseEntry_none (k k' : Key) (es : List (Key × List Byte))
    (h : lookupEntry k es = none) : lookupEntry k (eraseEntry k' es) = none := by
  by_cases e : k = k'
  · rw [e]; exact lookupEntry_eraseEntry_self k' es
  · rw [lookupEntry_eraseEntry_ne k' k es e]; exact h

theorem DB.has_step (db : DB) (k : Key) (op : Op) (h : db.has k = false)
    (hop : noSetOf k [op] = true) : (db.step op).has k = false := by
  have h0 : lookupEntry k db.db.entries = none := by
    simpa [DB.has] using h
  cases op with
  | set f k' v =>
    have hne : k' ≠ k := by simpa [noSetOf] using hop
    by_cases hk : k' = []
    · simpa [DB.step, DB.Set, BadgerDB.Update, Txn.Set, hk] using h
    · cases f with
      | some e => simpa [DB.step, DB.Set, BadgerDB.Update, Txn.Set, hk] using h
      | none =>
        simp only [DB.step, DB.Set_eq db k' v hk, DB.has, lookupEntry, if_neg hne,
          lookupEntry_eraseEntry_none k k' _ h0]
        rfl
  | delete f k' =>
    by_cases hk : k' = []
    · simpa [DB.step, DB.Delete, BadgerDB.Update, Txn.Delete, hk] using h
    · cases f with
      | some e => simpa [DB.step, DB.Delete, BadgerDB.Update, Txn.Delete, hk] using h
      | none =>
        simp only [DB.step, DB.Delete_eq db k' hk, DB.has,
          lookupEntry_eraseEntry_none k k' _ h0]
        rfl

theorem DB.has_run (k : Key) : ∀ (ops : List Op) (db : DB), db.has k = false →
    noSetOf k ops = true → (db.run ops).has k = false
  | [], _, h, _ => h
  | op :: ops, db, h, hop => by
    have h1 : noSetOf k [op] = true ∧ noSetOf k ops = true := by
      cases op <;> simpa [noSetOf] using hop
    exact DB.has_run k ops (db.step op) (DB.has_step db k op h h1.1) h1.2

theorem DB.Get_of_not_has (db : DB) (k : Key) (hk : k ≠ []) (h : db.has k = false) :
    db.Get none k = (Slice.nil, some ErrKeyNotFound) := by
  have h0 : lookupEntry k db.db.entries = none := by
    simpa [DB.has] using h
  rw [DB.Get_eq db k hk, h0]

/-- After a `Set` that returned no error, `Get` finds the bytes that were set. -/
theorem DB.Get_after_Set (db db' : DB) (f : Option BadgerError) (k : Key) (v : Slice Byte)
    (h : db.Set f k v = (db', none)) :
    k ≠ [] ∧ db'.Get none k = (Slice.copyOf v.toList, none) := by
  obtain ⟨hk, _, hdb⟩ := DB.Set_ok db db' f k v h
  subst hdb
  refine ⟨hk, ?_⟩
  rw [DB.Get_eq _ k hk]
  simp [lookupEntry]

theorem Slice.toList_copyOf {α : Type} (l : List α) : (Slice.copyOf l).toList = l := by
  cases l <;> rfl

theorem Slice.copyOf_toList {α : Type} (v : Slice α) (h : v.toList ≠ []) :
    Slice.copyOf v.toList = v := by
  cases v with
  | nil => exact absurd rfl h
  | mk xs =>
    cases xs with
    | nil => exact absurd rfl h
    | cons x xs => rfl

/-! ## The store contract -/

/-- C1.  Round trip and upsert: when `Set(k, v)` returns no error (which it does only for
a non-empty key), the next `Get(k)`, served by the engine without failure, returns no
error and the bytes of `v`, whatever the store held for `k` before; the slice returned
is `v` itself unless `v` is empty.  A second `Set(k, v2)` that returns no error makes
`Get(k)` return the bytes of `v2`. -/
theorem DB.set_get_round_trip (db db' : DB) (f : Option BadgerError) (k : Key) (v : Slice Byte)
    (h : db.Set f k v = (db', none)) :
    k ≠ [] ∧ (db'.Get none k).2 = none ∧ (db'.Get none k).1.toList = v.toList ∧
      (v.toList ≠ [] → (db'.Get none k).1 = v) ∧
      (∀ (g : Option BadgerError) (v2 : Slice Byte) (db2 : DB), db'.Set g k v2 = (db2, none) →
        (db2.Get none k).2 = none ∧ (db2.Get none k).1.toList = v2.toList) := by
  obtain ⟨hk, hget⟩ := DB.Get_after_Set db db' f k v h
  rw [hget]
  refine ⟨hk, rfl, Slice.toList_copyOf _, Slice.copyOf_toList v, ?_⟩
  intro g v2 db2 h2
  rw [(DB.Get_after_Set db' db2 g k v2 h2).2]
  exact ⟨rfl, Slice.toList_copyOf _⟩

/-- C1 at a concrete input: "a/1" already holds `1` in the example store; setting it
to `2` succeeds and the next `Get` returns `2`. -/
theorem DB.set_get_round_trip_witness :
    (exampleDB.Get none kA1).1 = .mk [49] ∧
    ((exampleDB.Set none kA1 (.mk [50])).1.Get none kA1).2 = none ∧
    ((exampleDB.Set none kA1 (.mk [50])).1.Get none kA1).1.toList = [50] ∧
    ((exampleDB.Set none kA1 (.mk [50])).1.Get none kA1).1 = .mk [50] :=
  ⟨by decide,
   (DB.set_get_round_trip exampleDB (exampleDB.Set none kA1 (.mk [50])).1 none kA1 (.mk [50])
    (by decide)).2.1,
   (DB.set_get_round_trip exampleDB (exampleDB.Set none kA1 (.mk [50])).1 none kA1 (.mk [50])
    (by decide)).2.2.1,
   (DB.set_get_round_trip exampleDB (exampleDB.Set none kA1 (.mk [50])).1 none kA1 (.mk [50])
    (by decide)).2.2.2.1 (by decide)⟩

/-- C2.  Not found: for a (non-empty) key never set since the store was empty, and for a
key deleted from any store, with no `Set` of that key since, `Get`, served by the engine
without failure, returns the nil value with exactly the package sentinel
`ErrKeyNotFound`. -/
theorem DB.get_not_found (k : Key) (ops : List Op) (hk : k ≠ []) (hno : noSetOf k ops = true) :
    (DB.empty.run ops).Get none k = (Slice.nil, some ErrKeyNotFound) ∧
    ∀ db : DB, ((db.Delete none k).1.run ops).Get none k = (Slice.nil, some ErrKeyNotFound) := by
  constructor
  · exact DB.Get_of_not_has _ k hk (DB.has_run k ops DB.empty rfl hno)
  · intro db
    refine DB.Get_of_not_has _ k hk (DB.has_run k ops _ ?_ hno)
    rw [DB.Delete_eq db k hk]
    simp [DB.has, lookupEntry_eraseEntry_self]

/-- C2 at a concrete input: "z" is never set; "a/1" is deleted from the example store;
in both cases other keys are set and deleted afterwards. -/
theorem DB.get_not_found_witness :
    ((DB.empty.run [.set none kA1 (.mk [49]), .delete none kA2]).Get none kZ
        = (Slice.nil, some ErrKeyNotFound) ∧
      ∀ db : DB, ((db.Delete none kZ).1.run [.set none kA1 (.mk [49]), .delete none kA2]).Get
        none kZ = (Slice.nil, some ErrKeyNotFound)) ∧
    (exampleDB.Get none kA1).2 = none ∧
    ((exampleDB.Delete none kA1).1.Get none kA1) = (Slice.nil, some ErrKeyNotFound) :=
  ⟨DB.get_not_found kZ [.set none kA1 (.mk [49]), .delete none kA2] (by decide) (by decide),
   by decide, by decide⟩

/-- C3.  Prefix listing: `ListKeys(p)` returns no error and exactly the stored keys that
have `p` as a byte prefix, each once, in strictly ascending byte order; with `p` empty,
every stored key.  On the store holding "a/1", "a/2", "b/1" it returns ["a/1", "a/2"]
for "a/" and all three for "". -/
theorem DB.list_keys_by_prefix (db : DB) (f : Option BadgerError) (p : Key) :
    (db.ListKeys f p).2 = none ∧
    (∀ k, k ∈ (db.ListKeys f p).1.toList ↔ (db.has k = true ∧ hasPrefixB k p = true)) ∧
    (db.ListKeys f p).1.toList.Nodup ∧
    (db.ListKeys f p).1.toList.Pairwise (fun a b => keyLt a b = true) ∧
    (∀ k, k ∈ (db.ListKeys f []).1.toList ↔ db.has k = true) ∧
    (exampleDB.ListKeys f kASlash).1 = .mk [kA1, kA2] ∧
    (exampleDB.ListKeys f []).1 = .mk [kA1, kA2, kB1] := by
  have hasc : Ascending (db.ListKeys f p).1.toList := by
    rw [DB.ListKeys_toList]
    exact List.Pairwise.sublist (List.filter_sublist _) (ascending_sortedKeys _)
  refine ⟨by rw [DB.ListKeys_eq], ?_, ascending_nodup _ hasc, hasc, ?_, ?_, ?_⟩
  · intro k
    rw [DB.ListKeys_toList, List.mem_filter, mem_sortedKeys]
    rfl
  · intro k
    rw [DB.ListKeys_toList, List.mem_filter, mem_sortedKeys, hasPrefixB_nil]
    simp [DB.has]
  · rw [DB.ListKeys_eq]; rfl
  · rw [DB.ListKeys_eq]; rfl

/-- C4.  Idempotent delete: `Delete` of an absent (non-empty) key, served by the engine
without failure, returns no error and leaves the store as it was; and two `Delete(k)` in
a row leave the same store as one, so every later `Get` and `ListKeys` answers the
same. -/
theorem DB.delete_idempotent (db : DB) (f : Option BadgerError) (k : Key) :
    (k ≠ [] → db.has k = false → db.Delete none k = (db, none)) ∧
    ((db.Delete f k).1.Delete f k).1 = (db.Delete f k).1 ∧
    (∀ g k', ((db.Delete f k).1.Delete f k).1.Get g k' = (db.Delete f k).1.Get g k') ∧
    (∀ g p, ((db.Delete f k).1.Delete f k).1.ListKeys g p = (db.Delete f k).1.ListKeys g p) := by
  have twice : ((db.Delete f k).1.Delete f k).1 = (db.Delete f k).1 := by
    by_cases hk : k = []
    · subst hk
      rw [DB.Delete_empty_key, DB.Delete_empty_key]
    · cases f with
      | some e => rw [DB.Delete_fault, DB.Delete_fault]
      | none =>
        rw [DB.Delete_eq db k hk, DB.Delete_eq _ k hk]
        simp [eraseEntry_idem]
  refine ⟨?_, twice, ?_, ?_⟩
  · intro hk h
    have h0 : lookupEntry k db.db.entries = none := by
      simpa [DB.has] using h
    rw [DB.Delete_eq db k hk, eraseEntry_of_lookupEntry_none k _ h0]
  · intro g k'
    rw [twice]
  · intro g p
    rw [twice]

/-- C4 at a concrete input: "z" is absent from the example store. -/
theorem DB.delete_idempotent_witness :
    exampleDB.Delete none kZ = (exampleDB, none) ∧
    ((exampleDB.Delete none kA1).1.Delete none kA1).1 = (exampleDB.Delete none kA1).1 ∧
    (exampleDB.Delete none kA1).1 ≠ exampleDB :=
  ⟨(DB.delete_idempotent exampleDB none kZ).1 (by decide) (by decide),
   (DB.delete_idempotent exampleDB none kA1).2.1, by decide⟩

/-! ## Lemmas: the errors of the store -/

theorem errorsIs_Errorf_badger (fmt : String) (arg : Option Key) (e : BadgerError) :
    errorsIs (.Errorf fmt arg (.badger e)) ErrKeyNotFound = false := by
  simp [errorsIs, ErrKeyNotFound]

theorem errorsIs_self (e : GoError) : errorsIs e e = true := by
  unfold errorsIs
  simp

/-- What `DB.Get` returns when the engine's `txn.Get` fails with `e`. -/
theorem DB.Get_of_txn_error (db : DB) (f : Option BadgerError) (k : Key) (e : BadgerError)
    (h : Txn.Get ⟨db.db.entries, f⟩ k = .error e) :
    db.Get f k =
      (if e = .ErrKeyNotFound then (Slice.nil, some ErrKeyNotFound)
       else (Slice.nil, some (.Errorf "get '%v' error: %w" (some k) (.badger e)))) := by
  simp only [DB.Get, BadgerDB.View, h]
  by_cases he : e = .ErrKeyNotFound
  · subst he
    simp [errorsIs]
  · simp [errorsIs, he]

/-- What `DB.Get` returns when the engine's `txn.Get` finds an item. -/
theorem DB.Get_of_txn_ok (db : DB) (f : Option BadgerError) (k : Key) (item : Item)
    (h : Txn.Get ⟨db.db.entries, f⟩ k = .ok item) :
    db.Get f k = (Slice.copyOf item.val, none) := by
  simp only [DB.Get, BadgerDB.View, h]
  rfl

/-- An error of `DB.Delete` wraps an engine error. -/
theorem DB.Delete_error (db : DB) (f : Option BadgerError) (k : Key) (err : GoError)
    (h : (db.Delete f k).2 = some err) :
    ∃ fmt arg e, err = .Errorf fmt arg (.badger e) := by
  unfold DB.Delete at h
  split at h
  · exact ⟨_, _, _, (Option.some.inj h).symm⟩
  · simp at h

/-- The three shapes of a result of `DB.Get`. -/
theorem DB.Get_shape (db : DB) (f : Option BadgerError) (k : Key) :
    (∃ val, db.Get f k = (val, none)) ∨
    db.Get f k = (Slice.nil, some ErrKeyNotFound) ∨
    (∃ fmt arg e, db.Get f k = (Slice.nil, some (.Errorf fmt arg (.badger e)))) := by
  cases ht : Txn.Get ⟨db.db.entries, f⟩ k with
  | error e =>
    rw [DB.Get_of_txn_error db f k e ht]
    by_cases he : e = .ErrKeyNotFound
    · rw [if_pos he]
      exact Or.inr (Or.inl rfl)
    · rw [if_neg he]
      exact Or.inr (Or.inr ⟨_, _, _, rfl⟩)
  | ok item =>
    rw [DB.Get_of_txn_ok db f k item ht]
    exact Or.inl ⟨_, rfl⟩

/-! ## The API layer -/

/-- C5.  Status mapping of `GET /items/{key}`: the handler leaves the store as it was;
it answers 400 for the empty key; otherwise 404 exactly when `Store.Get` returns
`ErrKeyNotFound` (which, when the engine serves the read, is exactly when the key is not
stored), 500 when `Store.Get` returns any other error or the stored bytes do not decode,
and 200 with body `{"value": v}` for the decoded value `v`. -/
theorem getKey_status_mapping (codec : Codec) (db : DB) (f : Option BadgerError) (key : Key) :
    (getKey codec db f key).1 = db ∧
    (key = [] → (getKey codec db f key).2.status = 400) ∧
    (key ≠ [] →
      ((getKey codec db f key).2.status = 404 ↔ (db.Get f key).2 = some ErrKeyNotFound)) ∧
    (key ≠ [] → ∀ err, (db.Get f key).2 = some err → err ≠ ErrKeyNotFound →
      (getKey codec db f key).2.status = 500) ∧
    (key ≠ [] → (db.Get f key).2 = none →
      ∀ err, codec.Unmarshal (db.Get f key).1.toList = .error err →
        (getKey codec db f key).2.status = 500) ∧
    (key ≠ [] → (db.Get f key).2 = none →
      ∀ v, codec.Unmarshal (db.Get f key).1.toList = .ok v →
        (getKey codec db f key).2 = ⟨200, .value v⟩) ∧
    (key ≠ [] → f = none →
      ((getKey codec db f key).2.status = 404 ↔ db.has key = false)) := by
  by_cases hk : key = []
  · subst hk
    simp [getKey]
  · have hlast : f = none →
        ((db.Get f key).2 = some ErrKeyNotFound ↔ db.has key = false) := by
      intro hf
      subst hf
      rw [DB.Get_eq db key hk]
      cases hl : lookupEntry key db.db.entries <;> simp [DB.has, hl]
    rcases DB.Get_shape db f key with ⟨val, hg⟩ | hg | ⟨fmt, arg, e, hg⟩
    · have key404 : (getKey codec db f key).2.status = 404 ↔
          (db.Get f key).2 = some ErrKeyNotFound := by
        rw [hg]
        simp only [getKey, hk, if_false, hg]
        cases codec.Unmarshal val.toList <;> simp
      refine ⟨?_, fun h => absurd h hk, fun _ => key404, ?_, ?_, ?_,
        fun _ hf => key404.trans (hlast hf)⟩
      · simp only [getKey, hk, if_false, hg]
        cases codec.Unmarshal val.toList <;> rfl
      · intro _ err herr
        rw [hg] at herr
        simp at herr
      · intro _ _ err hu
        rw [hg] at hu
        simp only [getKey, hk, if_false, hg]
        simp only [] at hu
        rw [hu]
      · intro _ _ v hu
        rw [hg] at hu
        simp only [getKey, hk, if_false, hg]
        simp only [] at hu
        rw [hu]
    · have key404 : (getKey codec db f key).2.status = 404 ↔
          (db.Get f key).2 = some ErrKeyNotFound := by
        rw [hg]
        simp [getKey, hk, hg, errorsIs_self]
      refine ⟨?_, fun h => absurd h hk, fun _ => key404, ?_, ?_, ?_,
        fun _ hf => key404.trans (hlast hf)⟩
      · simp [getKey, hk, hg, errorsIs_self]
      · intro _ err herr hne
        rw [hg] at herr
        exact absurd (Option.some.inj herr).symm hne
      · intro _ hnone
        rw [hg] at hnone
        simp at hnone
      · intro _ hnone
        rw [hg] at hnone
        simp at hnone
    · have key404 : (getKey codec db f key).2.status = 404 ↔
          (db.Get f key).2 = some ErrKeyNotFound := by
        rw [hg]
        simp [getKey, hk, hg, errorsIs_Errorf_badger, ErrKeyNotFound]
      refine ⟨?_, fun h => absurd h hk, fun _ => key404, ?_, ?_, ?_,
        fun _ hf => key404.trans (hlast hf)⟩
      · simp [getKey, hk, hg, errorsIs_Errorf_badger]
      · intro _ err _ _
        simp [getKey, hk, hg, errorsIs_Errorf_badger]
      · intro _ hnone
        rw [hg] at hnone
        simp at hnone
      · intro _ hnone
        rw [hg] at hnone
        simp at hnone

/-- C5 at concrete inputs on the example store: the empty key, the absent key "z", a
read the engine fails, a stored value that does not decode, and the stored "a/1". -/
theorem getKey_status_mapping_witness :
    (getKey exampleCodec exampleDB none []).2.status = 400 ∧
    (getKey exampleCodec exampleDB none kZ).2.status = 404 ∧
    (getKey exampleCodec exampleDB (some (.failure 5)) kA1).2.status = 500 ∧
    (getKey exampleCodec (exampleDB.Set none kA1 (.mk [123])).1 none kA1).2.status = 500 ∧
    (getKey exampleCodec exampleDB none kA1).2 = ⟨200, .value (.number "1")⟩ :=
  ⟨(getKey_status_mapping exampleCodec exampleDB none []).2.1 rfl,
   ((getKey_status_mapping exampleCodec exampleDB none kZ).2.2.1 (by decide)).mpr (by decide),
   (getKey_status_mapping exampleCodec exampleDB (some (.failure 5)) kA1).2.2.2.1 (by decide)
     (.Errorf "get '%v' error: %w" (some kA1) (.badger (.failure 5))) (by decide) (by decide),
   (getKey_status_mapping exampleCodec (exampleDB.Set none kA1 (.mk [123])).1 none kA1).2.2.2.2.1
     (by decide) (by decide) (.json 4) rfl,
   (getKey_status_mapping exampleCodec exampleDB none kA1).2.2.2.2.2.1
     (by decide) (by decide) (.number "1") rfl⟩

/-- C7.  `DELETE /items/{key}` never answers 404: for a non-empty key the handler
answers 204 whenever `Store.Delete` returns no error, a key that was absent included,
and 500 otherwise; no error of `Store.Delete` matches `ErrKeyNotFound`, so the 404 branch
is never taken. -/
theorem deleteKey_never_404 (db : DB) (f : Option BadgerError) (key : Key) (hk : key ≠ []) :
    (deleteKey db f key).2.status ≠ 404 ∧
    ((db.Delete f key).2 = none → (deleteKey db f key).2.status = 204) ∧
    ((db.Delete f key).2 ≠ none → (deleteKey db f key).2.status = 500) ∧
    (f = none → db.has key = false →
      (db.Delete f key).2 = none ∧ (deleteKey db f key).2.status = 204) ∧
    (∀ (db₀ : DB) (g : Option BadgerError) (k : Key) (err : GoError),
      (db₀.Delete g k).2 = some err → errorsIs err ErrKeyNotFound = false) := by
  have hmatch : ∀ (db₀ : DB) (g : Option BadgerError) (k : Key) (err : GoError),
      (db₀.Delete g k).2 = some err → errorsIs err ErrKeyNotFound = false := by
    intro db₀ g k err h
    obtain ⟨fmt, arg, e, he⟩ := DB.Delete_error db₀ g k err h
    rw [he]
    exact errorsIs_Errorf_badger fmt arg e
  have h204 : (db.Delete f key).2 = none → (deleteKey db f key).2.status = 204 := by
    intro h
    rcases hd : db.Delete f key with ⟨db', _ | err⟩
    · simp [deleteKey, hk, hd]
    · rw [hd] at h
      simp at h
  have h500 : (db.Delete f key).2 ≠ none → (deleteKey db f key).2.status = 500 := by
    intro h
    rcases hd : db.Delete f key with ⟨db', _ | err⟩
    · rw [hd] at h
      exact absurd rfl h
    · have := hmatch db f key err (by rw [hd])
      simp [deleteKey, hk, hd, this]
  refine ⟨?_, h204, h500, ?_, hmatch⟩
  · by_cases h : (db.Delete f key).2 = none
    · rw [h204 h]; decide
    · rw [h500 h]; decide
  · intro hf _
    subst hf
    have : (db.Delete none key).2 = none := by rw [DB.Delete_eq db key hk]
    exact ⟨this, h204 this⟩

/-- C7 at concrete inputs: "z" is absent from the example store and its delete answers
204; a delete that the engine fails answers 500. -/
theorem deleteKey_never_404_witness :
    ((deleteKey exampleDB none kZ).2.status ≠ 404 ∧
      (deleteKey exampleDB none kZ).2.status = 204) ∧
    exampleDB.has kZ = false ∧
    (deleteKey exampleDB (some .ErrKeyNotFound) kA1).2.status = 500 :=
  ⟨⟨(deleteKey_never_404 exampleDB none kZ (by decide)).1,
    (deleteKey_never_404 exampleDB none kZ (by decide)).2.1 (by decide)⟩,
   by decide, by decide⟩

/-- C6.  `POST /items` on bodies that lack a field: the tags of `setReq` say
`bind:"required"` while the validator reads the tag `binding`, so no field is checked.
A body without "value" is not answered 400: when the engine serves the write it is
answered 201 and the JSON text of `null` is stored under the key.  A body without "key"
is not answered 400 either.  A malformed body is answered 400 and the store is left as
it was. -/
theorem setKey_missing_field_not_rejected (codec : Codec) (db : DB) (f : Option BadgerError) :
    tagLookup ginValidatorTagName setReq.ValueTag = none ∧
    tagLookup "bind" setReq.ValueTag = some "required" ∧
    (setKey codec db f bodyWithoutValue).2.status ≠ 400 ∧
    (∀ val, codec.Marshal .null = .ok val →
      (setKey codec db none bodyWithoutValue).2.status = 201 ∧
      ((setKey codec db none bodyWithoutValue).1.Get none [120]).1.toList = val) ∧
    (setKey codec db f bodyWithoutKey).2.status ≠ 400 ∧
    setKey codec db f .malformed = (db, ⟨400, .error (.ofError (.json 0))⟩) := by
  have hbind : ShouldBindJSON bodyWithoutValue = .ok ⟨[120], .null⟩ := rfl
  have hbind' : ShouldBindJSON bodyWithoutKey = .ok ⟨[], .number "1"⟩ := rfl
  refine ⟨by decide, by decide, ?_, ?_, ?_, rfl⟩
  · simp only [setKey, hbind]
    cases codec.Marshal .null with
    | error e => simp
    | ok val =>
      rcases hs : db.Set f [120] (.mk val) with ⟨db', _ | err⟩ <;> simp [hs]
  · intro val hm
    have hset := DB.Set_eq db [120] (.mk val) (by decide)
    have hr : setKey codec db none bodyWithoutValue
        = (⟨⟨([120], val) :: eraseEntry [120] db.db.entries⟩⟩, ⟨201, .text ""⟩) := by
      simp only [setKey, hbind, hm, hset]
      rfl
    rw [hr]
    refine ⟨rfl, ?_⟩
    rw [DB.Get_eq _ [120] (by decide)]
    simp only [lookupEntry, if_true]
    cases val <;> rfl
  · simp only [setKey, hbind']
    cases codec.Marshal (.number "1") with
    | error e => simp
    | ok val =>
      rcases hs : db.Set f [] (.mk val) with ⟨db', _ | err⟩ <;> simp [hs]

/-- C8.  Ordered shutdown: in every run of `Server.Close(ctx)` the engine's `Close` is
called at most once, every call of it comes after `Shutdown` has returned without error,
and when `Shutdown` returns an error it is not called at all; after a clean `Shutdown`
of a started server it is called. -/
theorem Server.close_ordered (s : Server) (sh cl : Option GoError) :
    ((s.Close sh cl).1.filter Event.isDbClose).length ≤ 1 ∧
    (∀ pre r post, (s.Close sh cl).1 = pre ++ Event.dbClose r :: post →
      Event.srvShutdown none ∈ pre ∧ sh = none) ∧
    (sh ≠ none → ∀ r, Event.dbClose r ∉ (s.Close sh cl).1) ∧
    (s.srv ≠ none → sh = none → Event.dbClose cl ∈ (s.Close sh cl).1) := by
  rcases s with ⟨db, r, _ | srv⟩
  · refine ⟨by simp [Server.Close], ?_, ?_, ?_⟩
    · intro pre r post h
      rcases pre with _ | ⟨x, pre⟩ <;> simp [Server.Close] at h
    · intro _ r
      simp [Server.Close]
    · intro h
      exact absurd rfl h
  · cases sh with
    | some e =>
      refine ⟨by simp [Server.Close, Event.isDbClose], ?_, ?_, ?_⟩
      · intro pre r post h
        rcases pre with _ | ⟨x, _ | ⟨y, pre⟩⟩ <;> simp [Server.Close] at h
      · intro _ r
        simp [Server.Close]
      · intro _ h
        exact absurd h (by simp)
    | none =>
      cases cl with
      | some e =>
        refine ⟨by simp [Server.Close, Event.isDbClose], ?_, ?_, ?_⟩
        · intro pre r post h
          rcases pre with _ | ⟨x, pre⟩
          · simp [Server.Close] at h
          · simp only [Server.Close, List.cons_append, List.cons.injEq] at h
            exact ⟨by rw [← h.1]; exact List.mem_cons_self _ _, rfl⟩
        · intro h
          exact absurd rfl h
        · intro _ _
          simp [Server.Close]
      | none =>
        refine ⟨by simp [Server.Close, Event.isDbClose], ?_, ?_, ?_⟩
        · intro pre r post h
          rcases pre with _ | ⟨x, pre⟩
          · simp [Server.Close] at h
          · simp only [Server.Close, List.cons_append, List.cons.injEq] at h
            exact ⟨by rw [← h.1]; exact List.mem_cons_self _ _, rfl⟩
        · intro h
          exact absurd rfl h
        · intro _ _
          simp [Server.Close]

/-- C9.  `Server.Run(addr)` stores in the server an HTTP server whose handler is the
server's router and whose listen address is ":8080" whatever `addr` is, and changes no
other field; the router of a server made by `DB.Server` has the four routes.  With
`addr` ":9090" the listen address is ":8080", not ":9090". -/
theorem Server.run_ignores_addr (s : Server) (db : DB) (addr : String) :
    (s.Run addr).1.srv = some ⟨":8080", s.r⟩ ∧
    (s.Run addr).2 = ⟨":8080", s.r⟩ ∧
    (s.Run addr).1.db = s.db ∧ (s.Run addr).1.r = s.r ∧
    (db.Server.Run addr).2.Handler.routes.map (fun r => r.handler)
      = [.getKey, .setKey, .deleteKey, .listKeys] ∧
    (db.Server.Run ":9090").2.Addr = ":8080" ∧
    (db.Server.Run ":9090").2.Addr ≠ ":9090" :=
  ⟨rfl, rfl, rfl, rfl, rfl, rfl, (by decide : (":8080" : String) ≠ ":9090")⟩

/-- C10 as stated fails: no key of the example store ("a/1", "a/2", "b/1") has the
prefix "z", and `ListKeys("z")` returns no error and the nil slice, not a present empty
one. -/
theorem DB.list_keys_nil_on_example :
    (exampleDB.ListKeys none []).1 = .mk [kA1, kA2, kB1] ∧
    [kA1, kA2, kB1].all (fun k => !hasPrefixB k kZ) = true ∧
    exampleDB.ListKeys none kZ = (Slice.nil, none) ∧
    (exampleDB.ListKeys none kZ).1.isNil = true := by
  decide

/-- C10, amended.  When no stored key has the prefix `p`, `ListKeys(p)` returns no error
and the nil slice, of length zero; the handler `listKeys` puts a present empty slice in
its place, so its answer is 200 with an empty array.  For every prefix the handler's
answer on success carries a present slice. -/
theorem DB.list_keys_no_match (db : DB) (f : Option BadgerError) (p : Key)
    (h : ∀ k, db.has k = true → hasPrefixB k p = false) :
    db.ListKeys f p = (Slice.nil, none) ∧
    (db.ListKeys f p).1.len = 0 ∧
    listKeys db f p = (db, ⟨200, .keys (.mk [])⟩) ∧
    (∀ q, ∃ ks, listKeys db f q = (db, ⟨200, .keys (.mk ks)⟩)) := by
  have hnil : db.ListKeys f p = (Slice.nil, none) := by
    have hf : (sortedKeys db.db.entries).filter (fun k => hasPrefixB k p) = [] := by
      rw [List.filter_eq_nil_iff]
      intro k hk
      have := h k ((mem_sortedKeys k _).mp hk)
      simp [this]
    rw [DB.ListKeys_eq, hf]
  refine ⟨hnil, by rw [hnil]; rfl, by simp [listKeys, hnil, Slice.isNil], ?_⟩
  intro q
  rw [listKeys, DB.ListKeys_eq]
  cases (sortedKeys db.db.entries).filter (fun k => hasPrefixB k q) with
  | nil => exact ⟨[], rfl⟩
  | cons x xs => exact ⟨x :: xs, rfl⟩

/-- C10 amended, at a concrete input: prefix "z" on the example store. -/
theorem DB.list_keys_no_match_witness :
    exampleDB.ListKeys none kZ = (Slice.nil, none) ∧
    (exampleDB.ListKeys none kZ).1.len = 0 ∧
    listKeys exampleDB none kZ = (exampleDB, ⟨200, .keys (.mk [])⟩) ∧
    (∀ q, ∃ ks, listKeys exampleDB none q = (exampleDB, ⟨200, .keys (.mk ks)⟩)) :=
  DB.list_keys_no_match exampleDB none kZ (by
    intro k hk
    have hmem : k ∈ sortedKeys exampleDB.db.entries := (mem_sortedKeys k _).mpr hk
    have hkeys : sortedKeys exampleDB.db.entries = [kA1, kA2, kB1] := by decide
    rw [hkeys] at hmem
    simp only [List.mem_cons, List.mem_singleton, List.not_mem_nil, or_false] at hmem
    rcases hmem with e | e | e <;> rw [e] <;> decide)

end Badgers
